import Mathlib

set_option linter.unusedVariables false

/-!
Verification of `probey.py`, a concurrent HTTP host prober.

The Python source is shallowly embedded: pure text processing becomes Lean
functions on strings (implemented over `List Char` so that concrete inputs
evaluate inside the kernel); the network, the external `subfinder` process
and the clock become explicit environment parameters; the cooperative
(asyncio) scheduler becomes either an explicit completion-order schedule
(for `asyncio.gather` result assembly) or a small-step transition relation
(for the semaphore admission gate).
-/

namespace Probey

/-! ## Python-faithful text primitives

`str.strip`, `str.replace(pat, "")`, `str.split("/")[0]` and
`str.startswith` are re-implemented structurally over `List Char`. -/

/-- ASCII whitespace stripped by Python `str.strip()` on the inputs at hand:
space, tab, newline, carriage return, vertical tab, form feed. -/
def pyIsSpace (c : Char) : Bool :=
  c = ' ' || c = '\t' || c = '\n' || c = '\r' || c = '\x0b' || c = '\x0c'

/-- `str.strip()`: drop whitespace from both ends. -/
def trimChars (s : List Char) : List Char :=
  ((s.dropWhile pyIsSpace).reverse.dropWhile pyIsSpace).reverse

def pyStrip (s : String) : String := String.mk (trimChars s.data)

/-- If `pat` is a prefix of `s`, return the remainder of `s`, else `none`. -/
def stripOcc : List Char → List Char → Option (List Char)
  | [], s => some s
  | _ :: _, [] => none
  | p :: ps, c :: cs => if p = c then stripOcc ps cs else none

/-- Python `str.replace(pat, "")`: scan left to right, deleting leftmost
non-overlapping occurrences of `pat`.  Fuelled by the input length, which
suffices because each step consumes at least one character. -/
def removeAllAux (pat : List Char) : Nat → List Char → List Char
  | 0, s => s
  | _ + 1, [] => []
  | fuel + 1, c :: cs =>
    match stripOcc pat (c :: cs) with
    | some rest => removeAllAux pat fuel rest
    | none => c :: removeAllAux pat fuel cs

def pyReplaceDel (pat s : String) : String :=
  String.mk (removeAllAux pat.data s.data.length s.data)

/-! ## Data model

`probe_url` in the source returns one of two dict shapes:
success `{url, final_url, status_code, server, content_type}` or failure
`{url, error}`.  We embed both shapes in one record with optional parts
so that the XOR claim about the two shapes is a real statement. -/

structure ProbeSuccess where
  final_url : String
  status_code : Nat
  server : Option String
  content_type : Option String
deriving Repr, DecidableEq

structure ProbeOutcome where
  url : String
  success : Option ProbeSuccess
  error : Option String
deriving Repr, DecidableEq

structure HostRecord where
  host : String
  probes : List ProbeOutcome
deriving Repr, DecidableEq

structure RunReport where
  root_domain : Option String
  hosts_file : Option String
  generated_at : String
  host_count : Nat
  hosts : List HostRecord
deriving Repr, DecidableEq

/-- A network-layer failure as caught in `probe_url`:
`except (httpx.RequestError, httpx.TimeoutException) as e`.
`kind` models `type(e).__name__`, `msg` models `str(e)`. -/
structure NetError where
  kind : String
  msg : String
deriving Repr, DecidableEq

/-- A completed HTTP exchange as seen by `probe_url` on success:
`r.url` after redirects, `r.status_code`, and the response headers. -/
structure HttpResponse where
  final_url : String
  status_code : Nat
  headers : List (String × String)
deriving Repr, DecidableEq

/-- `r.headers.get(k)`: first header whose (lower-cased) name matches. -/
def headerGet (hs : List (String × String)) (k : String) : Option String :=
  (hs.find? (fun kv => kv.fst = k)).map (fun kv => kv.snd)

/-- The network as an oracle: what `await client.get(url, follow_redirects=True)`
does for a given URL — either a response or a raised transport error. -/
abbrev Net : Type := String → Except NetError HttpResponse

/-! ## Probe Unit (`probe_url`, `probe_host`) -/

/-- Embedding of `probe_url` (src/probey.py lines 40–51): on success build the
success dict, on any caught transport error build `{url, error}` with
`error = f"{type(e).__name__}: {e}"`. -/
def probe_url (net : Net) (url : String) : ProbeOutcome :=
  match net url with
  | Except.ok r =>
      { url := url
        success := some
          { final_url := r.final_url
            status_code := r.status_code
            server := headerGet r.headers "server"
            content_type := headerGet r.headers "content-type" }
        error := none }
  | Except.error e =>
      { url := url, success := none, error := some (e.kind ++ ": " ++ e.msg) }

/-- Embedding of `probe_host` (lines 54–65), network phase only: one HTTPS
probe of the host, wrapped into `{"host": host, "probes": results}`.
Semaphore interaction is modelled separately by the gate machine below. -/
def probe_host (net : Net) (host : String) : HostRecord :=
  { host := host, probes := [probe_url net ("https://" ++ host)] }

/-! ## Host Normalizer (`read_hosts_file`)

The file read itself is external; the embedding takes the decoded lines
(`.splitlines()`) as input. -/

/-- The normalization applied to a stripped, kept line (line 22):
`line.replace("http://", "").replace("https://", "").split("/")[0]` —
note Python `str.replace` deletes every occurrence, not only a prefix. -/
def normalizeHost (line : String) : String :=
  String.mk ((pyReplaceDel "https://" (pyReplaceDel "http://" line)).data.takeWhile
    (fun c => c ≠ '/'))

/-- One loop iteration of `read_hosts_file` (lines 17–24): strip, skip empty
and `#`-comment lines, normalize, and keep the result if non-empty. -/
def lineHost (raw : String) : Option String :=
  let line := pyStrip raw
  if line.data.isEmpty || line.data.head? = some '#' then none
  else
    let host := normalizeHost line
    if host.data.isEmpty then none else some host

/-- Embedding of `read_hosts_file` (lines 14–25): fold the lines into a set,
as the Python loop does with `hosts.add(line)`. -/
def read_hosts_file (lines : List String) : Finset String :=
  lines.foldl (fun acc raw =>
    match lineHost raw with
    | some h => insert h acc
    | none => acc) ∅

/-- The Host Normalizer as the SPEC describes it (§4.1): reduce a URL line
"to their authority segment by stripping any `http://`/`https://` prefix
and truncating at the first path separator" — i.e. strip only a LEADING
scheme, not every occurrence.  Used to compare spec against code. -/
def spec_lineHost (raw : String) : Option String :=
  let line := pyStrip raw
  if line.data.isEmpty || line.data.head? = some '#' then none
  else
    let noScheme :=
      match stripOcc ("http://".data) line.data with
      | some r => r
      | none =>
        match stripOcc ("https://".data) line.data with
        | some r => r
        | none => line.data
    let host := String.mk (noScheme.takeWhile (fun c => c ≠ '/'))
    if host.data.isEmpty then none else some host

/-- The spec's Host Normalizer lifted to whole inputs. -/
def spec_read_hosts (lines : List String) : Finset String :=
  lines.foldl (fun acc raw =>
    match spec_lineHost raw with
    | some h => insert h acc
    | none => acc) ∅

/-! ## Discovery Adapter (`run_subfinder`) -/

/-- Result of `subprocess.run([...], capture_output=True, text=True,
check=False)`: captured exit code and decoded stdout lines. -/
structure SubprocessResult where
  exitcode : Int
  stdout_lines : List String
deriving Repr, DecidableEq

/-- Embedding of `run_subfinder` (lines 28–37): empty set when
`shutil.which("subfinder")` is `None`; otherwise the set of stripped,
non-empty stdout lines.  `check=False` means the exit code is captured but
never consulted and no exception is raised for it. -/
def run_subfinder (binaryFound : Bool) (res : SubprocessResult) : Finset String :=
  if binaryFound then
    ((res.stdout_lines.map pyStrip).filter (fun s => !s.data.isEmpty)).toFinset
  else ∅

/-! ## Environment for `run` -/

structure Env where
  /-- whether `shutil.which("subfinder")` finds the binary -/
  subfinderFound : Bool
  /-- what `subprocess.run(["subfinder", ...])` returns when invoked -/
  subfinderResult : SubprocessResult
  /-- decoded lines of the hosts file at a given path -/
  hostsFileLines : String → List String
  /-- the network oracle -/
  net : Net
  /-- `datetime.now(timezone.utc).isoformat()` -/
  now : String

/-- The `elif domain:` branch (lines 73–75): Python truthiness, so `None`
and the empty string are both falsy and leave the set empty; a non-empty
domain contributes discovery union the domain itself
(`hosts |= run_subfinder(domain); hosts.add(domain)`). -/
def hostSetDomain (env : Env) (domain : Option String) : Finset String :=
  match domain with
  | some d =>
      if !d.data.isEmpty then
        insert d (run_subfinder env.subfinderFound env.subfinderResult)
      else ∅
  | none => ∅

/-- The working hostname set built at the top of `run` (lines 69–75):
`if hosts_file:` then `elif domain:` — Python truthiness on both tests, so
`None` and the empty string each fall through.  A truthy hosts-file path
takes precedence; otherwise a truthy domain yields discovery union the
domain itself; otherwise the set stays empty. -/
def hostSet (env : Env) (domain hosts_file : Option String) : Finset String :=
  match hosts_file with
  | some p =>
      if !p.data.isEmpty then read_hosts_file (env.hostsFileLines p)
      else hostSetDomain env domain
  | none => hostSetDomain env domain

/-! ## Sorting (`sorted(hosts)`)

Python `sorted` on strings compares code points lexicographically. -/

/-- Python's string order: code-point lexicographic comparison, i.e. the
lexicographic order on the character sequences. -/
def hostLe (a b : String) : Prop := a.data ≤ b.data

instance : DecidableRel hostLe := fun a b => by
  unfold hostLe; infer_instance

instance : IsTotal String hostLe := ⟨fun a b => le_total a.data b.data⟩

instance : IsTrans String hostLe := ⟨fun _ _ _ => le_trans⟩

instance : IsAntisymm String hostLe :=
  ⟨fun a b hab hba => by
    cases a; cases b
    exact congrArg String.mk (le_antisymm hab hba)⟩

instance : IsRefl String hostLe := ⟨fun a => le_refl a.data⟩

/-- Sorting any two permuted lists with an antisymmetric total order gives
the same list, so insertion sort lifts to multisets. -/
theorem insertionSort_perm_invariant (l₁ l₂ : List String) (h : l₁.Perm l₂) :
    l₁.insertionSort hostLe = l₂.insertionSort hostLe :=
  List.eq_of_perm_of_sorted
    (((List.perm_insertionSort hostLe l₁).trans h).trans
      (List.perm_insertionSort hostLe l₂).symm)
    (List.sorted_insertionSort hostLe l₁)
    (List.sorted_insertionSort hostLe l₂)

/-- `sorted(hosts)` (line 79): the canonical ascending enumeration of the
host set, computed by insertion sort on any list representation. -/
def sortedHosts (hosts : Finset String) : List String :=
  Quot.lift (fun l => l.insertionSort hostLe)
    (fun _ _ h => insertionSort_perm_invariant _ _ h) hosts.val

/-! ## Concurrency Scheduler (`run`, lines 68–92)

`asyncio.gather(*tasks)` runs its tasks concurrently — completions arrive
in an arbitrary order — and delivers the result list in submission order,
storing each task's result in the slot of the task's index as it
completes.  The completion order is modelled as an explicit schedule:
`sched b` lists, in completion order, the indices (within the batch) of
the tasks of batch `b`. -/

def batch_size : Nat := 200

/-- The number of iterations of `for i in range(0, len(tasks), batch_size)`. -/
def numBatches (n : Nat) : Nat := (n + (batch_size - 1)) / batch_size

/-- The slice `tasks[i : i + batch_size]` for batch index `b` (`i = 200 * b`). -/
def batchOf (l : List String) (b : Nat) : List String :=
  (l.drop (b * batch_size)).take batch_size

/-- One `asyncio.gather` call over the tasks of one batch: slots are filled
by task index as completions arrive in schedule order; the slot list (in
submission order) is the gather result.  A slot still `none` would mean a
task that never completed — impossible for real schedules, which are
permutations of the batch's indices. -/
def gatherStep (f : String → HostRecord) (hosts : List String)
    (acc : List (Option HostRecord)) (i : Nat) : List (Option HostRecord) :=
  match hosts[i]? with
  | some h => acc.set i (some (f h))
  | none => acc

def gatherExec (f : String → HostRecord) (hosts : List String) (order : List Nat) :
    List (Option HostRecord) :=
  order.foldl (gatherStep f hosts) (List.replicate hosts.length none)

/-- A schedule is valid for task list `l` when, for every batch that `run`
submits, the completion order is a permutation of that batch's indices:
every task of the batch completes exactly once. -/
def ValidSched (l : List String) (sched : Nat → List Nat) : Prop :=
  ∀ b < numBatches l.length, (sched b).Perm (List.range (batchOf l b).length)

/-- Embedding of `run` (lines 68–92): build the working set, sort it, probe
in batches of `batch_size` collecting each batch in submission order, and
assemble the report.  `concurrency` only sizes the admission gate, which
does not influence results (modelled separately below); `sched` is the
completion order chosen by the event loop. -/
def run (env : Env) (sched : Nat → List Nat) (domain hosts_file : Option String)
    (concurrency : Nat) : RunReport :=
  let hosts := hostSet env domain hosts_file
  let sorted := sortedHosts hosts
  let host_results :=
    ((List.range (numBatches sorted.length)).map (fun b =>
      (gatherExec (probe_host env.net) (batchOf sorted b) (sched b)).reduceOption)).flatten
  { root_domain := domain
    hosts_file := hosts_file
    generated_at := env.now
    host_count := hosts.card
    hosts := host_results }

/-! ## The admission gate (`asyncio.Semaphore(concurrency)`, lines 54–55, 77)

Interleaving semantics of one batch of probe units contending for the
semaphore.  Each unit runs `async with sem:` around its network phase, so
its lifecycle is `gateWait` (blocked on acquisition) → `probing` (slot
held, client open) → `done` (slot returned).  `release` is the context
manager exit, which the runtime performs on every path out of the body;
the body itself never raises because `probe_url` catches transport errors,
so completing the probe — successful or failed — is the only exit. -/

inductive Phase where
  | gateWait
  | probing
  | done
deriving DecidableEq, Repr

/-- Per-task phases plus the semaphore's internal counter of free slots. -/
structure GateState where
  phases : List Phase
  avail : Nat
deriving DecidableEq, Repr

/-- All units created, none yet inside `async with sem`; counter full at
`limit = concurrency`. -/
def initGate (limit n : Nat) : GateState :=
  { phases := List.replicate n Phase.gateWait, avail := limit }

/-- One scheduler step: a waiting unit may acquire only when a slot is
free; a probing unit may always finish and release. -/
inductive GateStep : GateState → GateState → Prop where
  | acquire (s : GateState) (i : Nat) (hi : i < s.phases.length)
      (hw : s.phases.get ⟨i, hi⟩ = Phase.gateWait) (hA : 0 < s.avail) :
      GateStep s { phases := s.phases.set i Phase.probing, avail := s.avail - 1 }
  | release (s : GateState) (i : Nat) (hi : i < s.phases.length)
      (hp : s.phases.get ⟨i, hi⟩ = Phase.probing) :
      GateStep s { phases := s.phases.set i Phase.done, avail := s.avail + 1 }

/-- Number of probe units currently holding the gate. -/
def holders (s : GateState) : Nat :=
  s.phases.countP (fun p => p = Phase.probing)

def GateReachable (limit n : Nat) (s : GateState) : Prop :=
  Relation.ReflTransGen GateStep (initGate limit n) s

/-- Gate safety invariant: free slots plus holders equals the budget. -/
def GateInv (limit : Nat) (s : GateState) : Prop :=
  s.avail + holders s = limit

theorem countP_set (p : Phase → Bool) :
    ∀ (l : List Phase) (i : Nat) (hi : i < l.length) (b : Phase),
    (l.set i b).countP p + (if p (l.get ⟨i, hi⟩) then 1 else 0)
      = l.countP p + (if p b then 1 else 0) := by
  intro l
  induction l with
  | nil => intro i hi; simp at hi
  | cons c cs ih =>
    intro i hi b
    cases i with
    | zero =>
      simp only [List.set, List.countP_cons, List.get]
      omega
    | succ j =>
      have hj : j < cs.length := by simpa using hi
      simp only [List.set, List.countP_cons, List.get]
      have := ih j hj b
      omega

theorem gateStep_inv {limit : Nat} {s t : GateState} (hs : GateInv limit s)
    (h : GateStep s t) : GateInv limit t := by
  cases h with
  | acquire i hi hw hA =>
    have hc := countP_set (fun p => p = Phase.probing) s.phases i hi Phase.probing
    rw [hw] at hc
    unfold GateInv holders at hs ⊢
    simp at hc ⊢
    omega
  | release i hi hp =>
    have hc := countP_set (fun p => p = Phase.probing) s.phases i hi Phase.done
    rw [hp] at hc
    unfold GateInv holders at hs ⊢
    simp at hc ⊢
    omega

theorem holders_init (limit n : Nat) : holders (initGate limit n) = 0 := by
  unfold holders initGate
  induction n with
  | zero => rfl
  | succ k ih => simp only [List.replicate_succ, List.countP_cons] at ih ⊢; simp [ih]

theorem gateReachable_inv {limit n : Nat} {s : GateState}
    (h : GateReachable limit n s) : GateInv limit s := by
  induction h with
  | refl => unfold GateInv; rw [holders_init]; simp [initGate]
  | tail _ hstep ih => exact gateStep_inv ih hstep

/-- A state from which no step is possible has no gate holder: a probing
unit can always release, under every exit path. -/
theorem stuck_no_holders {s : GateState} (h : ∀ t, ¬ GateStep s t) :
    holders s = 0 := by
  by_contra hne
  have hpos : 0 < s.phases.countP (fun p => p = Phase.probing) :=
    Nat.pos_of_ne_zero hne
  rw [List.countP_pos_iff] at hpos
  obtain ⟨a, ha, hpa⟩ := hpos
  obtain ⟨⟨i, hi⟩, hget⟩ := List.mem_iff_get.mp ha
  have hp : s.phases.get ⟨i, hi⟩ = Phase.probing := by
    rw [hget]
    simpa using hpa
  exact h _ (GateStep.release s i hi hp)

/-! ## Result assembly of `asyncio.gather`

Whatever order completions arrive in, the slot list delivered by `gather`
is the per-task results in submission order. -/

theorem gatherStep_length (f : String → HostRecord) (hosts : List String)
    (acc : List (Option HostRecord)) (i : Nat) :
    (gatherStep f hosts acc i).length = acc.length := by
  unfold gatherStep
  cases hosts[i]? <;> simp

theorem gatherFold_length (f : String → HostRecord) (hosts : List String) :
    ∀ (order : List Nat) (acc : List (Option HostRecord)),
    (order.foldl (gatherStep f hosts) acc).length = acc.length := by
  intro order
  induction order with
  | nil => intro acc; rfl
  | cons c rest ih =>
    intro acc
    rw [List.foldl_cons, ih, gatherStep_length]

theorem gatherFold_not_mem (f : String → HostRecord) (hosts : List String) :
    ∀ (order : List Nat) (acc : List (Option HostRecord)) (j : Nat), j ∉ order →
    (order.foldl (gatherStep f hosts) acc)[j]? = acc[j]? := by
  intro order
  induction order with
  | nil => intro acc j hj; rfl
  | cons c rest ih =>
    intro acc j hj
    rw [List.foldl_cons, ih _ _ (fun h => hj (List.mem_cons_of_mem c h))]
    unfold gatherStep
    cases hosts[c]? with
    | none => rfl
    | some h =>
      refine List.getElem?_set_ne ?_
      intro hne
      subst hne
      exact hj (List.mem_cons_self c rest)

theorem gatherFold_mem (f : String → HostRecord) (hosts : List String) :
    ∀ (order : List Nat) (acc : List (Option HostRecord)) (j : Nat)
      (hj : j < hosts.length), acc.length = hosts.length → j ∈ order →
    (order.foldl (gatherStep f hosts) acc)[j]? = some (some (f hosts[j])) := by
  intro order
  induction order with
  | nil => intro acc j hj _ hmem; exact absurd hmem (List.not_mem_nil j)
  | cons c rest ih =>
    intro acc j hj hlen hmem
    rw [List.foldl_cons]
    by_cases hjr : j ∈ rest
    · exact ih _ j hj (by rw [gatherStep_length]; exact hlen) hjr
    · have hjc : j = c := by
        rcases List.mem_cons.mp hmem with h | h
        · exact h
        · exact absurd h hjr
      subst hjc
      rw [gatherFold_not_mem f hosts rest _ j hjr]
      unfold gatherStep
      rw [List.getElem?_eq_getElem hj]
      exact List.getElem?_set_self (by rw [hlen]; exact hj)

/-- The gather result for any completion order covering the whole batch:
every slot holds its own task's result, in submission order. -/
theorem gatherExec_perm (f : String → HostRecord) (hosts : List String)
    (order : List Nat) (h : order.Perm (List.range hosts.length)) :
    gatherExec f hosts order = hosts.map (fun x => some (f x)) := by
  apply List.ext_getElem?
  intro j
  by_cases hj : j < hosts.length
  · have hmem : j ∈ order := h.mem_iff.mpr (List.mem_range.mpr hj)
    rw [gatherExec, gatherFold_mem f hosts order _ j hj (List.length_replicate _ _) hmem]
    rw [List.getElem?_map, List.getElem?_eq_getElem hj]
    rfl
  · rw [List.getElem?_eq_none, List.getElem?_eq_none]
    · simpa using Nat.le_of_not_lt hj
    · rw [gatherExec, gatherFold_length, List.length_replicate]
      exact Nat.le_of_not_lt hj

theorem reduceOption_map_some (l : List HostRecord) :
    (l.map (fun x => some x)).reduceOption = l := by
  induction l with
  | nil => rfl
  | cons a as ih => simp [List.reduceOption_cons_of_some, ih]

/-! ## Batch partitioning (`for i in range(0, len(tasks), batch_size)`) -/

theorem batchOf_length (l : List String) (b : Nat) :
    (batchOf l b).length = min batch_size (l.length - b * batch_size) := by
  simp [batchOf]

/-- Every non-final batch is full. -/
theorem batchOf_length_of_not_last (l : List String) (b : Nat)
    (h : b + 1 < numBatches l.length) : (batchOf l b).length = batch_size := by
  rw [batchOf_length]
  unfold numBatches batch_size at *
  omega

/-- Concatenating the batch slices in order recovers the task list. -/
theorem batches_flatten : ∀ (k : Nat) (l : List String), k = numBatches l.length →
    ((List.range k).map (batchOf l)).flatten = l := by
  intro k
  induction k with
  | zero =>
    intro l hk
    have : l.length = 0 := by unfold numBatches batch_size at hk; omega
    rw [List.length_eq_zero.mp this]
    rfl
  | succ k ih =>
    intro l hk
    rw [List.range_succ_eq_map, List.map_cons, List.flatten_cons, List.map_map]
    have hbatch0 : batchOf l 0 = l.take batch_size := by
      simp [batchOf]
    have hshift : (range_elem : Nat) → (batchOf l ∘ Nat.succ) range_elem
        = batchOf (l.drop batch_size) range_elem := by
      intro b
      simp only [Function.comp, batchOf, List.drop_drop]
      rw [Nat.succ_mul, Nat.add_comm]
    rw [hbatch0, List.map_congr_left (fun b _ => hshift b)]
    rw [ih (l.drop batch_size) (by
      rw [List.length_drop]
      unfold numBatches batch_size at hk ⊢
      omega)]
    exact List.take_append_drop batch_size l

/-! ## Batch barrier timing

The batch loop's event trace: task creation (`launch`) and task completion
(`complete`), tagged with batch number and in-batch index.  One
`asyncio.gather` call creates all its tasks together, completions then
arrive in the event loop's order, and the `await` suspends the loop until
the whole batch has completed, so each batch's events strictly precede the
next batch's. -/

inductive Ev where
  | launch (batch idx : Nat)
  | complete (batch idx : Nat)
deriving DecidableEq, Repr

def Ev.batchIdx : Ev → Nat
  | Ev.launch b _ => b
  | Ev.complete b _ => b

/-- Events of batch `b` with `len` tasks completing in `order`. -/
def batchEvents (b len : Nat) (order : List Nat) : List Ev :=
  (List.range len).map (Ev.launch b) ++ order.map (Ev.complete b)

/-- Trace of the batch loop from batch `b₀` with `k` batches remaining. -/
def traceAux (sched : Nat → List Nat) (lens : Nat → Nat) : Nat → Nat → List Ev
  | _, 0 => []
  | b, Nat.succ k => batchEvents b (lens b) (sched b) ++ traceAux sched lens (b + 1) k

/-- The full event trace of `run`'s batch loop (lines 83–84). -/
def runTrace (env : Env) (sched : Nat → List Nat) (domain hosts_file : Option String) :
    List Ev :=
  let sorted := sortedHosts (hostSet env domain hosts_file)
  traceAux sched (fun b => (batchOf sorted b).length) 0 (numBatches sorted.length)

theorem batchEvents_batchIdx {e : Ev} {b len : Nat} {order : List Nat}
    (h : e ∈ batchEvents b len order) : e.batchIdx = b := by
  rcases List.mem_append.mp h with h | h <;>
    · obtain ⟨x, _, rfl⟩ := List.mem_map.mp h
      rfl

theorem traceAux_batchIdx_le (sched : Nat → List Nat) (lens : Nat → Nat) :
    ∀ (k b₀ p : Nat) (e : Ev), (traceAux sched lens b₀ k)[p]? = some e →
    b₀ ≤ e.batchIdx := by
  intro k
  induction k with
  | zero => intro b₀ p e h; simp [traceAux] at h
  | succ k ih =>
    intro b₀ p e h
    simp only [traceAux] at h
    by_cases hp : p < (batchEvents b₀ (lens b₀) (sched b₀)).length
    · rw [List.getElem?_append_left hp] at h
      exact Nat.le_of_eq (batchEvents_batchIdx (List.getElem?_mem h)).symm
    · rw [List.getElem?_append_right (Nat.le_of_not_lt hp)] at h
      exact Nat.le_of_succ_le (ih (b₀ + 1) _ e h)

/-- In the trace, every completion of an earlier batch precedes every
launch of a later batch. -/
theorem traceAux_sequential (sched : Nat → List Nat) (lens : Nat → Nat) :
    ∀ (k b₀ p q b b' i j : Nat),
    (traceAux sched lens b₀ k)[p]? = some (Ev.complete b i) →
    (traceAux sched lens b₀ k)[q]? = some (Ev.launch b' j) →
    b < b' → p < q := by
  intro k
  induction k with
  | zero => intro b₀ p q b b' i j hp hq hbb; simp [traceAux] at hp
  | succ k ih =>
    intro b₀ p q b b' i j hp hq hbb
    simp only [traceAux] at hp hq
    by_cases hpL : p < (batchEvents b₀ (lens b₀) (sched b₀)).length
    · by_cases hqL : q < (batchEvents b₀ (lens b₀) (sched b₀)).length
      · rw [List.getElem?_append_left hpL] at hp
        rw [List.getElem?_append_left hqL] at hq
        have h1 := batchEvents_batchIdx (List.getElem?_mem hp)
        have h2 := batchEvents_batchIdx (List.getElem?_mem hq)
        simp [Ev.batchIdx] at h1 h2
        omega
      · exact lt_of_lt_of_le hpL (Nat.le_of_not_lt hqL)
    · rw [List.getElem?_append_right (Nat.le_of_not_lt hpL)] at hp
      have hb := traceAux_batchIdx_le sched lens k (b₀ + 1) _ _ hp
      simp [Ev.batchIdx] at hb
      by_cases hqL : q < (batchEvents b₀ (lens b₀) (sched b₀)).length
      · rw [List.getElem?_append_left hqL] at hq
        have h2 := batchEvents_batchIdx (List.getElem?_mem hq)
        simp [Ev.batchIdx] at h2
        omega
      · rw [List.getElem?_append_right (Nat.le_of_not_lt hqL)] at hq
        have := ih (b₀ + 1) (p - (batchEvents b₀ (lens b₀) (sched b₀)).length)
          (q - (batchEvents b₀ (lens b₀) (sched b₀)).length) b b' i j hp hq hbb
        omega

/-! ## Properties of `sortedHosts` -/

theorem sortedHosts_sorted (s : Finset String) : (sortedHosts s).Sorted hostLe := by
  rcases s with ⟨val, hval⟩
  induction val using Quotient.inductionOn with
  | h l => exact List.sorted_insertionSort hostLe l

theorem mem_sortedHosts (s : Finset String) (x : String) :
    x ∈ sortedHosts s ↔ x ∈ s := by
  rcases s with ⟨val, hval⟩
  induction val using Quotient.inductionOn with
  | h l =>
    exact (List.perm_insertionSort hostLe l).mem_iff.trans Iff.rfl

theorem sortedHosts_nodup (s : Finset String) : (sortedHosts s).Nodup := by
  rcases s with ⟨val, hval⟩
  induction val using Quotient.inductionOn with
  | h l => exact ((List.perm_insertionSort hostLe l).nodup_iff).mpr hval

theorem sortedHosts_length (s : Finset String) : (sortedHosts s).length = s.card := by
  rcases s with ⟨val, hval⟩
  induction val using Quotient.inductionOn with
  | h l => exact (List.perm_insertionSort hostLe l).length_eq

/-! ## Membership in the normalized host set -/

theorem mem_foldl_insert (g : String → Option String) :
    ∀ (lines : List String) (init : Finset String) (x : String),
    (x ∈ lines.foldl (fun acc raw =>
      match g raw with
      | some h => insert h acc
      | none => acc) init) ↔ (x ∈ init ∨ ∃ raw ∈ lines, g raw = some x) := by
  intro lines
  induction lines with
  | nil => intro init x; simp
  | cons r rs ih =>
    intro init x
    rw [List.foldl_cons]
    cases hg : g r with
    | none =>
      dsimp only
      rw [ih]
      simp only [List.mem_cons]
      constructor
      · rintro (hx | ⟨raw, hm, he⟩)
        · exact Or.inl hx
        · exact Or.inr ⟨raw, Or.inr hm, he⟩
      · rintro (hx | ⟨raw, hm | hm, he⟩)
        · exact Or.inl hx
        · rw [hm] at he; rw [he] at hg; exact absurd hg (by simp)
        · exact Or.inr ⟨raw, hm, he⟩
    | some y =>
      dsimp only
      rw [ih]
      simp only [Finset.mem_insert, List.mem_cons]
      constructor
      · rintro ((hx | hx) | ⟨raw, hm, he⟩)
        · exact Or.inr ⟨r, Or.inl rfl, by rw [hg, hx]⟩
        · exact Or.inl hx
        · exact Or.inr ⟨raw, Or.inr hm, he⟩
      · rintro (hx | ⟨raw, hm | hm, he⟩)
        · exact Or.inl (Or.inr hx)
        · rw [hm] at he; rw [he] at hg
          injection hg with h
          exact Or.inl (Or.inl h)
        · exact Or.inr ⟨raw, hm, he⟩

theorem mem_read_hosts_file (lines : List String) (x : String) :
    x ∈ read_hosts_file lines ↔ ∃ raw ∈ lines, lineHost raw = some x := by
  rw [read_hosts_file]
  rw [mem_foldl_insert lineHost lines ∅ x]
  simp

theorem mem_spec_read_hosts (lines : List String) (x : String) :
    x ∈ spec_read_hosts lines ↔ ∃ raw ∈ lines, spec_lineHost raw = some x := by
  rw [spec_read_hosts]
  rw [mem_foldl_insert spec_lineHost lines ∅ x]
  simp

theorem read_hosts_file_perm {l₁ l₂ : List String} (h : l₁.Perm l₂) :
    read_hosts_file l₁ = read_hosts_file l₂ := by
  ext x
  simp only [mem_read_hosts_file]
  constructor <;> rintro ⟨raw, hm, he⟩
  · exact ⟨raw, h.mem_iff.mp hm, he⟩
  · exact ⟨raw, h.mem_iff.mpr hm, he⟩

theorem read_hosts_file_dedup (l : List String) :
    read_hosts_file l.dedup = read_hosts_file l := by
  ext x
  simp only [mem_read_hosts_file]
  constructor <;> rintro ⟨raw, hm, he⟩
  · exact ⟨raw, (List.mem_dedup).mp hm, he⟩
  · exact ⟨raw, (List.mem_dedup).mpr hm, he⟩

/-! ## The aggregate result of `run` -/

theorem run_host_count (env : Env) (sched : Nat → List Nat)
    (domain hosts_file : Option String) (concurrency : Nat) :
    (run env sched domain hosts_file concurrency).host_count
      = (hostSet env domain hosts_file).card := rfl

theorem run_root_domain (env : Env) (sched : Nat → List Nat)
    (domain hosts_file : Option String) (concurrency : Nat) :
    (run env sched domain hosts_file concurrency).root_domain = domain := rfl

theorem run_hosts_file_field (env : Env) (sched : Nat → List Nat)
    (domain hosts_file : Option String) (concurrency : Nat) :
    (run env sched domain hosts_file concurrency).hosts_file = hosts_file := rfl

/-- Under any schedule that completes every task of every batch, the
`hosts` sequence is the probe results of the sorted host list, in sorted
order — an expression in which the schedule does not occur. -/
theorem run_hosts_eq (env : Env) (sched : Nat → List Nat)
    (domain hosts_file : Option String) (concurrency : Nat)
    (h : ValidSched (sortedHosts (hostSet env domain hosts_file)) sched) :
    (run env sched domain hosts_file concurrency).hosts
      = (sortedHosts (hostSet env domain hosts_file)).map (probe_host env.net) := by
  have hcongr : ∀ b ∈ List.range (numBatches (sortedHosts (hostSet env domain hosts_file)).length),
      (gatherExec (probe_host env.net)
          (batchOf (sortedHosts (hostSet env domain hosts_file)) b) (sched b)).reduceOption
        = (batchOf (sortedHosts (hostSet env domain hosts_file)) b).map (probe_host env.net) := by
    intro b hb
    rw [gatherExec_perm _ _ _ (h b (List.mem_range.mp hb))]
    rw [show (batchOf (sortedHosts (hostSet env domain hosts_file)) b).map
          (fun x => some (probe_host env.net x))
        = ((batchOf (sortedHosts (hostSet env domain hosts_file)) b).map
            (probe_host env.net)).map (fun x => some x) from (List.map_map _ _ _).symm]
    exact reduceOption_map_some _
  show ((List.range (numBatches (sortedHosts (hostSet env domain hosts_file)).length)).map
      (fun b => (gatherExec (probe_host env.net)
        (batchOf (sortedHosts (hostSet env domain hosts_file)) b) (sched b)).reduceOption)).flatten
    = (sortedHosts (hostSet env domain hosts_file)).map (probe_host env.net)
  rw [List.map_congr_left hcongr]
  rw [show (List.range (numBatches (sortedHosts (hostSet env domain hosts_file)).length)).map
        (fun b => (batchOf (sortedHosts (hostSet env domain hosts_file)) b).map
          (probe_host env.net))
      = ((List.range (numBatches (sortedHosts (hostSet env domain hosts_file)).length)).map
          (batchOf (sortedHosts (hostSet env domain hosts_file)))).map
          (List.map (probe_host env.net)) from (List.map_map _ _ _).symm]
  rw [← List.map_flatten]
  rw [batches_flatten _ _ rfl]

/-! ## Shared concrete instances for witnesses -/

/-- A network in which every connection is refused. -/
def netRefused : Net := fun _ => Except.error ⟨"ConnectError", "connection refused"⟩

/-- A small concrete environment: no discovery tool, a two-line hosts file,
all probes refused. -/
def envW : Env :=
  { subfinderFound := false
    subfinderResult := ⟨0, []⟩
    hostsFileLines := fun _ => ["b.example", "a.example"]
    net := netRefused
    now := "2026-01-01T00:00:00+00:00" }

/-- Same environment with the discovery tool present and producing output,
for checking that it is not consulted when a hosts file is given. -/
def envW2 : Env :=
  { subfinderFound := true
    subfinderResult := ⟨0, ["found.example"]⟩
    hostsFileLines := fun _ => ["b.example", "a.example"]
    net := netRefused
    now := "2026-01-01T00:00:00+00:00" }

/-- A completion order for one two-task batch: task 1 finishes first. -/
def schedW : Nat → List Nat := fun b => if b = 0 then [1, 0] else []

/-- `lineHost raw = some x` unfolded into the explicit conditions of the
loop body. -/
theorem lineHost_eq_some_iff (raw x : String) :
    lineHost raw = some x ↔
      (pyStrip raw).data ≠ []
      ∧ (pyStrip raw).data.head? ≠ some '#'
      ∧ (normalizeHost (pyStrip raw)).data ≠ []
      ∧ normalizeHost (pyStrip raw) = x := by
  simp only [lineHost]
  split_ifs with h1 h2
  · simp only [Bool.or_eq_true, List.isEmpty_iff, decide_eq_true_eq] at h1
    constructor
    · intro he; exact absurd he (by simp)
    · rintro ⟨hne, hhash, _, _⟩
      rcases h1 with h | h
      · exact absurd h hne
      · exact absurd h hhash
  · simp only [Bool.or_eq_true, List.isEmpty_iff, decide_eq_true_eq, not_or] at h1
    simp only [List.isEmpty_iff] at h2
    constructor
    · intro he; exact absurd he (by simp)
    · rintro ⟨_, _, hn, _⟩; exact absurd h2 hn
  · simp only [Bool.or_eq_true, List.isEmpty_iff, decide_eq_true_eq, not_or] at h1
    simp only [List.isEmpty_iff] at h2
    constructor
    · intro he
      injection he with he
      exact ⟨h1.1, h1.2, h2, he⟩
    · rintro ⟨_, _, _, heq⟩
      rw [heq]

/-- Batch-of-batches view of the aggregate result, shared by C8. -/
theorem map_batches_flatten (f : String → HostRecord) (l : List String) :
    ((List.range (numBatches l.length)).map (fun b => (batchOf l b).map f)).flatten
      = l.map f := by
  rw [show (List.range (numBatches l.length)).map (fun b => (batchOf l b).map f)
      = ((List.range (numBatches l.length)).map (batchOf l)).map (List.map f) from
    (List.map_map _ _ _).symm]
  rw [← List.map_flatten, batches_flatten _ _ rfl]

/-! ## The claims -/

/-- C1: for every hostname set fed to the scheduler and every completion
order of the concurrent probes, the report's `hosts` sequence lists exactly
one HostRecord per hostname of the working set (no duplicates, membership
iff in the set), ordered lexically by hostname — equal to an expression in
which the completion schedule does not occur, hence independent of probe
completion timing. -/
theorem C1_report_order_sorted_and_schedule_free (env : Env) (sched : Nat → List Nat)
    (domain hosts_file : Option String) (concurrency : Nat)
    (h : ValidSched (sortedHosts (hostSet env domain hosts_file)) sched) :
    ((run env sched domain hosts_file concurrency).hosts.map HostRecord.host
        = sortedHosts (hostSet env domain hosts_file))
    ∧ ((run env sched domain hosts_file concurrency).hosts.map HostRecord.host).Sorted hostLe
    ∧ ((run env sched domain hosts_file concurrency).hosts.map HostRecord.host).Nodup
    ∧ (∀ x, x ∈ (run env sched domain hosts_file concurrency).hosts.map HostRecord.host
        ↔ x ∈ hostSet env domain hosts_file)
    ∧ (run env sched domain hosts_file concurrency).hosts
        = (sortedHosts (hostSet env domain hosts_file)).map (probe_host env.net) := by
  have he := run_hosts_eq env sched domain hosts_file concurrency h
  have hmap : (run env sched domain hosts_file concurrency).hosts.map HostRecord.host
      = sortedHosts (hostSet env domain hosts_file) := by
    rw [he, List.map_map]
    have hid : (HostRecord.host ∘ probe_host env.net) = id := by
      funext x; rfl
    rw [hid, List.map_id]
  refine ⟨hmap, ?_, ?_, ?_, he⟩
  · rw [hmap]; exact sortedHosts_sorted _
  · rw [hmap]; exact sortedHosts_nodup _
  · intro x; rw [hmap]; exact mem_sortedHosts _ x

theorem C1_witness :
    (run envW schedW none (some "hosts.txt") 40).hosts.map HostRecord.host
      = sortedHosts (hostSet envW none (some "hosts.txt")) :=
  (C1_report_order_sorted_and_schedule_free envW schedW none (some "hosts.txt") 40
    (by unfold ValidSched; decide)).1

/-- C2: on any network-layer failure, the probe unit does not propagate it:
it returns (rather than raises) a well-formed outcome record carrying the
requested URL and an error descriptor `"<category>: <message>"`. -/
theorem C2_probe_failure_contained (net : Net) (host : String) (e : NetError)
    (h : net ("https://" ++ host) = Except.error e) :
    probe_host net host =
      { host := host
        probes := [{ url := "https://" ++ host
                     success := none
                     error := some (e.kind ++ ": " ++ e.msg) }] } := by
  simp only [probe_host, probe_url, h]

theorem C2_witness :
    probe_host netRefused "a.example" =
      { host := "a.example"
        probes := [{ url := "https://" ++ "a.example"
                     success := none
                     error := some ("ConnectError" ++ ": " ++ "connection refused") }] } :=
  C2_probe_failure_contained netRefused "a.example"
    ⟨"ConnectError", "connection refused"⟩ rfl

/-- C3 as stated is false: the adapter ignores the exit code entirely
(`check=False`, return code never consulted), so a non-zero exit with
non-empty stdout yields a non-empty set, not the empty set the claim
requires. -/
theorem C3_counterexample :
    (1 : Int) ≠ 0
    ∧ run_subfinder true ⟨1, ["x.example.com"]⟩ = {"x.example.com"}
    ∧ run_subfinder true ⟨1, ["x.example.com"]⟩ ≠ (∅ : Finset String) := by
  refine ⟨by decide, by decide, by decide⟩

/-- C3 amended: the adapter returns the empty set when the binary is absent
and when the output has no non-blank line; it never raises; the exit code
is ignored, so the result depends only on stdout. -/
theorem C3_amended_discovery_degrades (res : SubprocessResult) :
    run_subfinder false res = ∅
    ∧ ((res.stdout_lines.map pyStrip).filter (fun s => !s.data.isEmpty) = [] →
        run_subfinder true res = ∅)
    ∧ (∀ e₁ e₂ : Int, ∀ lines : List String, ∀ b : Bool,
        run_subfinder b ⟨e₁, lines⟩ = run_subfinder b ⟨e₂, lines⟩) := by
  refine ⟨rfl, ?_, ?_⟩
  · intro h
    simp only [run_subfinder, if_pos]
    rw [h]
    rfl
  · intro e₁ e₂ lines b
    cases b <;> rfl

theorem C3_amended_witness :
    run_subfinder false ⟨0, ["x.example.com"]⟩ = ∅
    ∧ run_subfinder true ⟨0, ["", "   "]⟩ = ∅ :=
  ⟨(C3_amended_discovery_degrades ⟨0, ["x.example.com"]⟩).1,
   (C3_amended_discovery_degrades ⟨0, ["", "   "]⟩).2.1 (by decide)⟩

/-- C4 as stated is false: the code removes every occurrence of `http://`
and `https://` anywhere in the line (Python `str.replace`), not only a
leading scheme.  On the line `"xhttp://y"` the claim's prefix-strip then
truncate-at-`/` yields `"xhttp:"`, but the code yields `"xy"`. -/
theorem C4_counterexample :
    lineHost "xhttp://y" = some "xy"
    ∧ spec_lineHost "xhttp://y" = some "xhttp:"
    ∧ read_hosts_file ["xhttp://y"] ≠ spec_read_hosts ["xhttp://y"] := by
  refine ⟨by decide, by decide, by decide⟩

/-- C4 amended: the normalizer yields the set containing, for each trimmed,
non-empty, non-`#` line, the line with EVERY occurrence of `http://` and
`https://` deleted and then truncated at the first `/`, provided that
result is non-empty; it is total, so malformed lines never cause a
failure, they are simply skipped. -/
theorem C4_amended_normalizer (lines : List String) (x : String) :
    x ∈ read_hosts_file lines ↔
      ∃ raw ∈ lines,
        (pyStrip raw).data ≠ []
        ∧ (pyStrip raw).data.head? ≠ some '#'
        ∧ (normalizeHost (pyStrip raw)).data ≠ []
        ∧ normalizeHost (pyStrip raw) = x := by
  rw [mem_read_hosts_file]
  apply exists_congr
  intro raw
  exact and_congr_right (fun _ => lineHost_eq_some_iff raw x)

/-- C5: every ProbeOutcome has exactly one of the two shapes: success
fields present and no error, or error present and no success fields. -/
theorem C5_outcome_tagged_xor (net : Net) (url : String) :
    ((probe_url net url).success.isSome ∧ (probe_url net url).error = none)
    ∨ ((probe_url net url).error.isSome ∧ (probe_url net url).success = none) := by
  cases hnet : net url with
  | ok r => left; simp [probe_url, hnet]
  | error e => right; simp [probe_url, hnet]

/-- C6: `host_count` is the cardinality of the deduplicated hostname set,
and the normalized set is invariant under reordering and duplication of
input lines. -/
theorem C6_host_count_set_cardinality (env : Env) (sched : Nat → List Nat)
    (domain hosts_file : Option String) (concurrency : Nat) :
    (run env sched domain hosts_file concurrency).host_count
      = (hostSet env domain hosts_file).card
    ∧ (∀ l₁ l₂ : List String, l₁.Perm l₂ → read_hosts_file l₁ = read_hosts_file l₂)
    ∧ (∀ l : List String, read_hosts_file l.dedup = read_hosts_file l) :=
  ⟨run_host_count env sched domain hosts_file concurrency,
   fun _ _ h => read_hosts_file_perm h,
   read_hosts_file_dedup⟩

theorem C6_witness :
    (run envW schedW none (some "hosts.txt") 40).host_count
        = (hostSet envW none (some "hosts.txt")).card
    ∧ read_hosts_file ["a.example", "b.example", "a.example"]
        = read_hosts_file ["b.example", "a.example", "a.example"] :=
  ⟨(C6_host_count_set_cardinality envW schedW none (some "hosts.txt") 40).1,
   (C6_host_count_set_cardinality envW schedW none (some "hosts.txt") 40).2.1
     ["a.example", "b.example", "a.example"] ["b.example", "a.example", "a.example"]
     (by decide)⟩

/-- A non-empty string is truthy: `if s:` succeeds exactly when the
character sequence is non-empty. -/
theorem ne_empty_truthy {s : String} (h : s ≠ "") : (!s.data.isEmpty) = true := by
  cases s with
  | mk l =>
    cases l with
    | nil => exact absurd rfl h
    | cons c cs => rfl

/-- C7 as stated is false at the empty domain string (reachable via
`--domain " "`, which `main` strips to `""`): `elif domain:` is then falsy,
so the working set is empty, not the singleton of the domain. -/
theorem C7_counterexample :
    envW.subfinderFound = false
    ∧ hostSet envW (some "") none = (∅ : Finset String)
    ∧ hostSet envW (some "") none ≠ ({""} : Finset String)
    ∧ (run envW schedW (some "") none 40).host_count = 0 := by
  refine ⟨rfl, by decide, by decide, by decide⟩

/-- C7 amended: with a NON-EMPTY root domain, no hosts file, and the
enumeration tool absent from the path, the working set is exactly the
singleton of the domain (an empty domain string is falsy in Python and
yields the empty working set instead). -/
theorem C7_domain_only_without_tool (env : Env) (sched : Nat → List Nat) (d : String)
    (concurrency : Nat) (h : env.subfinderFound = false) (hd : d ≠ "") :
    hostSet env (some d) none = {d}
    ∧ (run env sched (some d) none concurrency).host_count = 1 := by
  have hs : hostSet env (some d) none = {d} := by
    simp only [hostSet, hostSetDomain]
    rw [if_pos (ne_empty_truthy hd)]
    simp [run_subfinder, h]
  exact ⟨hs, by rw [run_host_count, hs]; exact Finset.card_singleton d⟩

theorem C7_witness : hostSet envW (some "example.com") none = {"example.com"} :=
  (C7_domain_only_without_tool envW schedW "example.com" 40 rfl (by decide)).1

/-- C8: the sorted task list is partitioned into consecutive batches of 200
(the last possibly smaller; 450 hosts make 3 batches); in the trace every
completion of batch `i` precedes every launch of batch `i+1`; and each
batch's results are appended in submission order. -/
theorem C8_sequential_batches (env : Env) (sched : Nat → List Nat)
    (domain hosts_file : Option String) (concurrency : Nat) :
    (((List.range (numBatches (sortedHosts (hostSet env domain hosts_file)).length)).map
        (batchOf (sortedHosts (hostSet env domain hosts_file)))).flatten
      = sortedHosts (hostSet env domain hosts_file))
    ∧ (∀ b, b + 1 < numBatches (sortedHosts (hostSet env domain hosts_file)).length →
        (batchOf (sortedHosts (hostSet env domain hosts_file)) b).length = batch_size)
    ∧ (∀ b, (batchOf (sortedHosts (hostSet env domain hosts_file)) b).length ≤ batch_size)
    ∧ batch_size = 200
    ∧ numBatches 450 = 3
    ∧ (∀ p q b b' i j : Nat,
        (runTrace env sched domain hosts_file)[p]? = some (Ev.complete b i) →
        (runTrace env sched domain hosts_file)[q]? = some (Ev.launch b' j) →
        b < b' → p < q)
    ∧ (ValidSched (sortedHosts (hostSet env domain hosts_file)) sched →
        (run env sched domain hosts_file concurrency).hosts
          = ((List.range (numBatches (sortedHosts (hostSet env domain hosts_file)).length)).map
              (fun b => (batchOf (sortedHosts (hostSet env domain hosts_file)) b).map
                (probe_host env.net))).flatten) := by
  refine ⟨batches_flatten _ _ rfl,
    batchOf_length_of_not_last _,
    ?_, rfl, by decide, ?_, ?_⟩
  · intro b
    rw [batchOf_length]
    exact Nat.min_le_left _ _
  · intro p q b b' i j hp hq hbb
    simp only [runTrace] at hp hq
    exact traceAux_sequential _ _ _ _ _ _ _ _ _ _ hp hq hbb
  · intro hvalid
    rw [run_hosts_eq env sched domain hosts_file concurrency hvalid]
    exact (map_batches_flatten (probe_host env.net) _).symm

theorem C8_witness :
    (run envW schedW none (some "hosts.txt") 40).hosts
      = ((List.range (numBatches (sortedHosts (hostSet envW none (some "hosts.txt"))).length)).map
          (fun b => (batchOf (sortedHosts (hostSet envW none (some "hosts.txt"))) b).map
            (probe_host envW.net))).flatten :=
  (C8_sequential_batches envW schedW none (some "hosts.txt") 40).2.2.2.2.2.2
    (by unfold ValidSched; decide)

/-- C9: in every reachable state of the gate machine, at most `limit`
(= `concurrency`) probe units hold the admission gate; and whenever the
machine can make no further step, every acquired slot has been released
(no unit is left holding the gate and the counter is back to `limit`) —
release happens on every exit path. -/
theorem C9_gate_bound_and_release (limit n : Nat) (s : GateState)
    (h : GateReachable limit n s) :
    holders s ≤ limit
    ∧ ((∀ t, ¬ GateStep s t) → holders s = 0 ∧ s.avail = limit) := by
  have hinv := gateReachable_inv h
  unfold GateInv at hinv
  refine ⟨by omega, ?_⟩
  intro hstuck
  have h0 := stuck_no_holders hstuck
  exact ⟨h0, by omega⟩

theorem C9_witness : holders (initGate 40 450) ≤ 40 :=
  (C9_gate_bound_and_release 40 450 (initGate 40 450) Relation.ReflTransGen.refl).1

/-- C10 as stated is false at the non-null empty path `""`: `if hosts_file:`
is falsy there, so the program falls through to the discovery branch — the
set is NOT built from the hosts file and the discovery tool IS consulted.
`envW` and `envW2` agree on hosts file, network and clock and differ only
in the discovery tool, yet produce different reports. -/
theorem C10_counterexample :
    (run envW schedW (some "example.com") (some "") 40).host_count = 1
    ∧ (run envW2 schedW (some "example.com") (some "") 40).host_count = 2
    ∧ run envW schedW (some "example.com") (some "") 40
        ≠ run envW2 schedW (some "example.com") (some "") 40
    ∧ hostSet envW (some "example.com") (some "")
        ≠ read_hosts_file (envW.hostsFileLines "") := by
  refine ⟨by decide, by decide, by decide, by decide⟩

/-- C10 amended: when both a domain and a NON-EMPTY hosts-file path are
supplied, the report is built from the hosts file alone — it does not
depend on the discovery tool's presence or output in any way — while
`root_domain` and `hosts_file` still record both supplied parameters.
(An empty-string path, though non-null, is falsy in Python and falls
through to the discovery branch.) -/
theorem C10_hosts_file_precedence (env₁ env₂ : Env) (sched : Nat → List Nat)
    (d p : String) (concurrency : Nat) (hp : p ≠ "")
    (hfl : env₁.hostsFileLines = env₂.hostsFileLines)
    (hnet : env₁.net = env₂.net) (hnow : env₁.now = env₂.now) :
    run env₁ sched (some d) (some p) concurrency
      = run env₂ sched (some d) (some p) concurrency
    ∧ (run env₁ sched (some d) (some p) concurrency).root_domain = some d
    ∧ (run env₁ sched (some d) (some p) concurrency).hosts_file = some p := by
  refine ⟨?_, rfl, rfl⟩
  simp only [run, hostSet]
  rw [if_pos (ne_empty_truthy hp), hfl, hnet, hnow]
  rw [if_pos (ne_empty_truthy hp)]

theorem C10_witness :
    run envW schedW (some "example.com") (some "hosts.txt") 40
      = run envW2 schedW (some "example.com") (some "hosts.txt") 40 :=
  (C10_hosts_file_precedence envW envW2 schedW "example.com" "hosts.txt" 40
    (by decide) rfl rfl rfl).1

end Probey
